import Mathlib

/-!
Shallow embedding of the transaction/element core of the gigobooks repository
(src/core/Transaction.ts), together with proofs about its behaviour.

Conventions of the embedding:
* JavaScript numbers that hold ids are modelled as `Option Nat` (`none` =
  `undefined`); JS truthiness of an id (`undefined` and `0` are falsy) is
  `truthyId`.
* Monetary amounts and `drcr` signs are `Int` (the code works with integer
  minor units).
* JS strings compare with `<` code-unit-lexicographically; this is `strLt`
  below, defined on the character list of the string.
* The transient `_parent` object reference of a `TElement` is modelled as an
  index into the transaction's element list (the spec's design notes, §9,
  describe exactly this representation).
-/

namespace Gigobooks

/-- Lexicographic (code-unit) comparison of character lists, as JavaScript
compares strings with `<`. -/
def lexLt : List Char → List Char → Bool
  | _, [] => false
  | [], _ :: _ => true
  | a :: as, b :: bs => a < b || (a == b && lexLt as bs)

/-- JavaScript string comparison `a < b`. -/
def strLt (a b : String) : Bool :=
  lexLt a.toList b.toList

theorem lexLt_irrefl (l : List Char) : lexLt l l = false := by
  induction l with
  | nil => rfl
  | cons a as ih => simp [lexLt, ih]

theorem lexLt_trans {a b c : List Char} (h₁ : lexLt a b = true)
    (h₂ : lexLt b c = true) : lexLt a c = true := by
  induction a generalizing b c with
  | nil =>
    cases c with
    | nil =>
      cases b with
      | nil => simp [lexLt] at h₁
      | cons y ys => simp [lexLt] at h₂
    | cons z zs => simp [lexLt]
  | cons x xs ih =>
    cases b with
    | nil => simp [lexLt] at h₁
    | cons y ys =>
      cases c with
      | nil => simp [lexLt] at h₂
      | cons z zs =>
        simp only [lexLt, Bool.or_eq_true, Bool.and_eq_true, beq_iff_eq,
          decide_eq_true_eq] at h₁ h₂ ⊢
        rcases h₁ with h₁ | ⟨rfl, h₁⟩
        · rcases h₂ with h₂ | ⟨rfl, h₂⟩
          · exact Or.inl (lt_trans h₁ h₂)
          · exact Or.inl h₁
        · rcases h₂ with h₂ | ⟨rfl, h₂⟩
          · exact Or.inl h₂
          · exact Or.inr ⟨rfl, ih h₁ h₂⟩

theorem lexLt_asymm {a b : List Char} (h : lexLt a b = true) :
    lexLt b a = false := by
  by_contra hc
  have hba : lexLt b a = true := by
    cases hab : lexLt b a with
    | false => exact absurd hab hc
    | true => rfl
  have := lexLt_trans h hba
  simp [lexLt_irrefl] at this

theorem lexLt_connex {a b : List Char} (h₁ : lexLt a b = false)
    (h₂ : lexLt b a = false) : a = b := by
  induction a generalizing b with
  | nil =>
    cases b with
    | nil => rfl
    | cons y ys => simp [lexLt] at h₁
  | cons x xs ih =>
    cases b with
    | nil => simp [lexLt] at h₂
    | cons y ys =>
      simp only [lexLt, Bool.or_eq_false_iff, Bool.and_eq_false_iff] at h₁ h₂
      obtain ⟨hxy, h₁'⟩ := h₁
      obtain ⟨hyx, h₂'⟩ := h₂
      have hxyeq : x = y := by
        rcases lt_trichotomy x y with h | h | h
        · simp [h] at hxy
        · exact h
        · simp [h] at hyx
      subst hxyeq
      rcases h₁' with h₁' | h₁'
      · simp at h₁'
      · rcases h₂' with h₂' | h₂'
        · simp at h₂'
        · rw [ih h₁' h₂']

theorem strLt_irrefl (s : String) : strLt s s = false :=
  lexLt_irrefl _

theorem strLt_trans {a b c : String} (h₁ : strLt a b = true)
    (h₂ : strLt b c = true) : strLt a c = true :=
  lexLt_trans h₁ h₂

theorem strLt_asymm {a b : String} (h : strLt a b = true) :
    strLt b a = false :=
  lexLt_asymm h

theorem strLt_connex {a b : String} (h₁ : strLt a b = false)
    (h₂ : strLt b a = false) : a = b := by
  have h := lexLt_connex h₁ h₂
  have hd : a.data = b.data := h
  cases a; cases b; exact congrArg String.mk hd

/-- The transaction types of the ledger (enum `TransactionType`). -/
inductive TransactionType
  | raw
  | contribution
  | sale
  | invoice
  | invoicePayment
  | purchase
  | bill
  | billPayment
deriving DecidableEq, Repr

/-- A ledger element (posting) row, including the transient in-memory
`_parent` reference of the `TElement` type.  `_parent` is modelled as an
index into the transaction's element list. -/
structure Element where
  id : Option Nat
  transactionId : Option Nat
  accountId : Nat
  drcr : Int
  amount : Int
  currency : String
  parentId : Int
  settleId : Nat
  taxCode : String
  _parent : Option Nat
deriving DecidableEq, Repr

instance : Inhabited Element :=
  ⟨⟨none, none, 0, 0, 0, "", 0, 0, "", none⟩⟩

/-- A vanilla (non-Element) input object, as accepted by `mergeElements`
(interface `IElement`). -/
structure IElement where
  id : Option Nat
  transactionId : Option Nat
  accountId : Nat
  drcr : Int
  amount : Int
  currency : String
  parentId : Int
  settleId : Nat
  taxCode : String
deriving DecidableEq, Repr

/-- Modelled from the spec: `Element.construct` (src/core/Element.ts is not
part of the provided sources) turns a vanilla posting object into an
`Element` model instance carrying the same posting fields; it has no
`_parent` reference yet. -/
def Element.construct (e : IElement) : Element :=
  ⟨e.id, e.transactionId, e.accountId, e.drcr, e.amount, e.currency,
    e.parentId, e.settleId, e.taxCode, none⟩

/-- JS truthiness of an id value: `undefined` and `0` are falsy. -/
def truthyId : Option Nat → Bool
  | none => false
  | some n => n != 0

/-- A per-currency balance entry (interface `Money`). -/
structure Money where
  amount : Int
  currency : String
deriving DecidableEq, Repr

/-- The contribution of one element to its currency's running total:
`sum ? e.amount : e.drcr * e.amount` in `_getBalances`. -/
def weight (sum : Bool) (e : Element) : Int :=
  if sum then e.amount else e.drcr * e.amount

/-- One step of the `balances` record update in `_getBalances`:
`if (balances[currency] == undefined) balances[currency] = 0;
balances[currency] += v`.  The record is modelled as an association list in
insertion order. -/
def addToRecord (balances : List (String × Int)) (cur : String) (v : Int) :
    List (String × Int) :=
  if balances.any (fun p => p.1 = cur) then
    balances.map (fun p => if p.1 = cur then (p.1, p.2 + v) else p)
  else
    balances ++ [(cur, v)]

/-- The `balances` record of `_getBalances` after folding over the elements. -/
def balancesRec (sum : Bool) (elements : List Element) : List (String × Int) :=
  elements.foldl (fun acc e => addToRecord acc e.currency (weight sum e)) []

/-- Modelled from the spec: `orderByField('currency')` (src/util/util.ts is
not part of the provided sources) is a comparator sorting records by the
named field ascending; the sort orders the `Money` list by currency code
ascending. -/
def moneyLe (a b : Money) : Prop :=
  strLt b.currency a.currency = false

instance : DecidableRel moneyLe := fun a b => by
  unfold moneyLe; infer_instance

instance : IsTotal Money moneyLe where
  total a b := by
    unfold moneyLe
    cases h : strLt b.currency a.currency with
    | false => exact Or.inl rfl
    | true => exact Or.inr (strLt_asymm h)

theorem strLt_trichotomy (a b : String) :
    strLt a b = true ∨ a = b ∨ strLt b a = true := by
  cases h₁ : strLt a b with
  | true => exact Or.inl rfl
  | false =>
    cases h₂ : strLt b a with
    | true => exact Or.inr (Or.inr rfl)
    | false => exact Or.inr (Or.inl (strLt_connex h₁ h₂))

theorem strLt_le_le {a b c : String} (h₁ : strLt b a = false)
    (h₂ : strLt c b = false) : strLt c a = false := by
  by_contra hc
  have h : strLt c a = true := by
    cases h' : strLt c a with
    | false => exact absurd h' hc
    | true => rfl
  rcases strLt_trichotomy c b with h' | h' | h'
  · rw [h'] at h₂; exact Bool.noConfusion h₂
  · subst h'; rw [h] at h₁; exact Bool.noConfusion h₁
  · rw [strLt_trans h' h] at h₁; exact Bool.noConfusion h₁

instance : IsTrans Money moneyLe where
  trans _ _ _ hab hbc := strLt_le_le hab hbc

/-- `Transaction._getBalances`: per-currency totals (net balances when
`sum = false`, plain sums when `sum = true`), as `Money` records sorted by
currency code ascending. -/
def _getBalances (elements : List Element) (sum : Bool) : List Money :=
  List.insertionSort moneyLe
    ((balancesRec sum elements).map (fun p => ⟨p.2, p.1⟩))

/-- `Transaction.getSums`. -/
def getSums (elements : List Element) : List Money :=
  _getBalances elements true

/-- `Transaction.isBalanced`: every per-currency net balance is zero. -/
def isBalanced (elements : List Element) : Bool :=
  (_getBalances elements false).all (fun b => b.amount == 0)

/-- The errors `mergeElements` can reject with. -/
inductive MergeError
  | noItems
  | transactionIdMismatch (i : Nat)
  | firstMustBeNonChild
  | idNotFound (id : Nat) (i : Nat)
  | notBalanced
deriving DecidableEq, Repr

/-- Index of the first item whose `transactionId` is truthy and differs from
the transaction's own truthy id (the first validation loop of
`mergeElements`). -/
def findMismatchIdx (tid : Option Nat) (i : Nat) :
    List IElement → Option Nat
  | [] => none
  | e :: rest =>
    if truthyId tid && truthyId e.transactionId && e.transactionId != tid then
      some i
    else
      findMismatchIdx tid (i + 1) rest

/-- The replacement scan of `mergeElements`: the index of the first element
whose id equals `k` (`for j in elements: if elements[j].id == e.id`). -/
def findIdxById (els : List Element) (k : Nat) : Option Nat :=
  match els with
  | [] => none
  | e :: rest =>
    if e.id == some k then some 0
    else (findIdxById rest k).map (fun j => j + 1)

/-- Placing one constructed element into the working list: append when it has
no id, otherwise replace the first element bearing that id in place; an
unknown id is an error carrying the id.  Returns the updated list and the
position the element was placed at. -/
def placeElement (els : List Element) (e : Element) :
    Except Nat (List Element × Nat) :=
  match e.id with
  | none => Except.ok (els ++ [e], els.length)
  | some k =>
    match findIdxById els k with
    | some j => Except.ok (els.set j e, j)
    | none => Except.error k

/-- The main loop of `mergeElements`: walk the candidate list, tracking the
position of the current root (`parent`) in the working list; a candidate with
`parentId == -1` keeps it and records the current root as its `_parent`,
any other candidate has its `parentId` reset to `0` and becomes the new
current root. -/
def mergeLoop (els : List Element) (pidx : Option Nat) (i : Nat) :
    List IElement → Except MergeError (List Element)
  | [] => Except.ok els
  | ie :: rest =>
    let e0 := Element.construct ie
    if e0.parentId = -1 then
      match placeElement els { e0 with _parent := pidx } with
      | Except.ok (els', _) => mergeLoop els' pidx (i + 1) rest
      | Except.error k => Except.error (MergeError.idNotFound k i)
    else
      match placeElement els { e0 with parentId := 0 } with
      | Except.ok (els', j) => mergeLoop els' (some j) (i + 1) rest
      | Except.error k => Except.error (MergeError.idNotFound k i)

/-- `Transaction.mergeElements` as a pure function from the transaction's id,
its current (possibly unloaded) element list and the candidate list to either
the new element list or the rejection. -/
def mergeElements (tid : Option Nat) (cur : Option (List Element))
    (list : List IElement) : Except MergeError (List Element) :=
  match list with
  | [] => Except.error MergeError.noItems
  | first :: _ =>
    match findMismatchIdx tid 0 list with
    | some i => Except.error (MergeError.transactionIdMismatch i)
    | none =>
      if first.parentId ≠ 0 then
        Except.error MergeError.firstMustBeNonChild
      else
        match mergeLoop (cur.getD []) none 0 list with
        | Except.error err => Except.error err
        | Except.ok els =>
          if isBalanced els then Except.ok els
          else Except.error MergeError.notBalanced

/-- The in-memory transaction state that the claims are about. -/
structure Transaction where
  id : Option Nat
  description : String
  type : Option TransactionType
  date : Option String
  due : Option String
  actorId : Option Nat
  elements : Option (List Element)
deriving DecidableEq, Repr

/-- The method-level `mergeElements`: on success the transaction's element
list is replaced by the working copy, on failure the transaction is
unchanged (the working copy is discarded before `this.elements` is
assigned). -/
def Transaction.mergeElementsRun (t : Transaction) (list : List IElement) :
    Except MergeError Unit × Transaction :=
  match mergeElements t.id t.elements list with
  | Except.ok els => (Except.ok (), { t with elements := some els })
  | Except.error e => (Except.error e, t)

/-- The getter `Transaction.balanced`:
`!this.elements || Transaction.isBalanced(this.elements)`. -/
def Transaction.balanced (t : Transaction) : Bool :=
  match t.elements with
  | none => true
  | some els => isBalanced els

/-- The first branch condition of the `_save` partition loop:
`e.amount != 0 || e.taxCode` (a kept element, to be saved). -/
def isKeep (e : Element) : Bool :=
  e.amount != 0 || e.taxCode != ""

/-- The child test of the `_save` partition loop: `e._parent || e.parentId`. -/
def hasParentRef (e : Element) : Bool :=
  e._parent.isSome || e.parentId != 0

/-- The `e.transactionId = this.id` assignment performed on every kept
element during the `_save` partition loop. -/
def setTxnIds (tid : Option Nat) (els : List Element) : List Element :=
  els.map (fun e => if isKeep e then { e with transactionId := tid } else e)

/-- The `_save` partition loop: distribute the (indexed) elements into the
`parents`, `children` and `deletes` batches. -/
def partitionEls (els : List Element) :
    List (Nat × Element) × List (Nat × Element) × List (Nat × Element) :=
  els.enum.foldl (fun acc ie =>
    if isKeep ie.2 then
      if hasParentRef ie.2 then (acc.1, acc.2.1 ++ [ie], acc.2.2)
      else (acc.1 ++ [ie], acc.2.1, acc.2.2)
    else if truthyId ie.2.id then (acc.1, acc.2.1, acc.2.2 ++ [ie])
    else acc) ([], [], [])

/-- JS loose comparison `c.parentId == e.id` between a number `parentId` and
a possibly-undefined id. -/
def jsEqIdInt (pid : Int) (id : Option Nat) : Bool :=
  match id with
  | some n => pid == (n : Int)
  | none => false

/-- The inner loop of the deletes phase: point every child whose `parentId`
equals the delete target's id at the target (`c._parent = e`). -/
def repointChildren (w : List Element) (cs : List Nat) (d : Nat) :
    List Element :=
  cs.foldl (fun w c =>
    let ce := w.getD c default
    if jsEqIdInt ce.parentId (w.getD d default).id then
      w.set c { ce with _parent := some d }
    else w) w

/-- One iteration of the deletes loop of `_save`: repoint the children of
the delete target, physically delete the row (recording the deleted
snapshot), then clear the target's id to `0` so children can detect the
deletion. -/
def deleteStep (cs : List Nat) (acc : List Element × List Element)
    (d : Nat) : List Element × List Element :=
  let w' := repointChildren acc.1 cs d
  let e := w'.getD d default
  (w'.set d { e with id := some 0 }, acc.2 ++ [e])

/-- The deletes phase of `_save` (`for e of deletes`). -/
def deletesPhase (w : List Element) (cs ds : List Nat) :
    List Element × List Element :=
  ds.foldl (deleteStep cs) (w, [])

/-- Modelled from the spec: `Element.save` (src/core/Element.ts is not part
of the provided sources) inserts a row returning a generated id when the
element has no id, and patches the existing row by id otherwise.  This phase
saves the `parents` batch, threading the generated-id supply. -/
def parentsPhase (w : List Element) (ps : List Nat) (fresh : Nat) :
    List Element × List Element × Nat :=
  ps.foldl (fun acc p =>
    let e := acc.1.getD p default
    match e.id with
    | none =>
      (acc.1.set p { e with id := some fresh },
        acc.2.1 ++ [{ e with id := some fresh }], acc.2.2 + 1)
    | some _ => (acc.1, acc.2.1 ++ [e], acc.2.2)) (w, [], fresh)

/-- The children phase of `_save`: a child carrying a `_parent` reference
resolves `parentId` to the parent's current id (or `0` when the parent was
deleted); a child resolved to `parentId = 0` with zero amount is deleted,
every other referenced child is saved.  Children without a `_parent`
reference are left untouched. -/
def childrenPhase (w : List Element) (cs : List Nat) (fresh : Nat) :
    List Element × List Element × List Element × Nat :=
  cs.foldl (fun acc c =>
    let e := acc.1.getD c default
    match e._parent with
    | none => acc
    | some pidx =>
      let pid := (acc.1.getD pidx default).id
      let newPid : Int := if truthyId pid then ((pid.getD 0 : Nat) : Int) else 0
      let e' := { e with parentId := newPid, _parent := none }
      if newPid == 0 && e'.amount == 0 then
        (acc.1.set c e', acc.2.1, acc.2.2.1 ++ [e'], acc.2.2.2)
      else
        match e'.id with
        | none =>
          (acc.1.set c { e' with id := some acc.2.2.2 },
            acc.2.1 ++ [{ e' with id := some acc.2.2.2 }], acc.2.2.1,
            acc.2.2.2 + 1)
        | some _ => (acc.1.set c e', acc.2.1 ++ [e'], acc.2.2.1, acc.2.2.2))
    (w, [], [], fresh)

/-- The storage effects of `_save` on the element rows: which element
snapshots were saved (inserted or patched) and which rows were physically
deleted, in order. -/
structure SaveEffects where
  saved : List Element
  deleted : List Element
deriving DecidableEq, Repr

/-- `Transaction._save` restricted to its element processing: `tid` is the
transaction's row id (after the upsert of the transaction row itself) and
`fresh` the next generated row id of the storage collaborator. -/
def _save (tid : Nat) (fresh : Nat) (elements : List Element) : SaveEffects :=
  let w0 := setTxnIds (some tid) elements
  let pcd := partitionEls w0
  let ps := pcd.1.map Prod.fst
  let cs := pcd.2.1.map Prod.fst
  let ds := pcd.2.2.map Prod.fst
  let wd := deletesPhase w0 cs ds
  let wp := parentsPhase wd.1 ps fresh
  let wc := childrenPhase wp.1 cs wp.2.2
  ⟨wp.2.1 ++ wc.2.1, wd.2 ++ wc.2.2.1⟩

/-- A stored transaction row as seen by the `prevId`/`nextId` queries. -/
structure TxnRow where
  id : Nat
  date : String
  type : TransactionType
deriving DecidableEq, Repr

/-- The optional `type` argument of `prevId`/`nextId`: absent, a single
type, or an array of types. -/
inductive TypeFilter
  | noFilter
  | single (t : TransactionType)
  | multi (ts : List TransactionType)
deriving DecidableEq, Repr

/-- The WHERE clause contributed by the `type` argument. -/
def typeMatches (tf : TypeFilter) (r : TxnRow) : Bool :=
  match tf with
  | TypeFilter.noFilter => true
  | TypeFilter.single t => r.type == t
  | TypeFilter.multi ts => ts.contains r.type

/-- Strict lexicographic comparison of (date, id) keys, as SQL compares the
ORDER BY columns. -/
def keyLtB (a b : String × Nat) : Bool :=
  strLt a.1 b.1 || (a.1 == b.1 && decide (a.2 < b.2))

/-- The (date, id) sort key of a row. -/
def rowKey (r : TxnRow) : String × Nat :=
  (r.date, r.id)

theorem keyLtB_irrefl (a : String × Nat) : keyLtB a a = false := by
  simp [keyLtB, strLt_irrefl]

theorem keyLtB_trans {a b c : String × Nat} (h₁ : keyLtB a b = true)
    (h₂ : keyLtB b c = true) : keyLtB a c = true := by
  simp only [keyLtB, Bool.or_eq_true, Bool.and_eq_true, beq_iff_eq,
    decide_eq_true_eq] at h₁ h₂ ⊢
  rcases h₁ with h₁ | ⟨e₁, h₁⟩
  · rcases h₂ with h₂ | ⟨e₂, h₂⟩
    · exact Or.inl (strLt_trans h₁ h₂)
    · exact Or.inl (e₂ ▸ h₁)
  · rcases h₂ with h₂ | ⟨e₂, h₂⟩
    · exact Or.inl (e₁ ▸ h₂)
    · exact Or.inr ⟨e₁.trans e₂, lt_trans h₁ h₂⟩

theorem keyLtB_asymm {a b : String × Nat} (h : keyLtB a b = true) :
    keyLtB b a = false := by
  by_contra hc
  have hba : keyLtB b a = true := by
    cases h' : keyLtB b a with
    | false => exact absurd h' hc
    | true => rfl
  have := keyLtB_trans h hba
  rw [keyLtB_irrefl] at this
  exact Bool.noConfusion this

theorem keyLtB_connex {a b : String × Nat} (h₁ : keyLtB a b = false)
    (h₂ : keyLtB b a = false) : a = b := by
  simp only [keyLtB, Bool.or_eq_false_iff, Bool.and_eq_false_iff] at h₁ h₂
  obtain ⟨hs₁, h₁'⟩ := h₁
  obtain ⟨hs₂, h₂'⟩ := h₂
  have he : a.1 = b.1 := strLt_connex hs₁ hs₂
  have hn : a.2 = b.2 := by
    rcases h₁' with h₁' | h₁'
    · simp [he] at h₁'
    · rcases h₂' with h₂' | h₂'
      · simp [he] at h₂'
      · simp only [decide_eq_false_iff_not, Nat.not_lt] at h₁' h₂'
        exact le_antisymm h₂' h₁'
  exact Prod.ext he hn

theorem keyLtB_le_le {a b c : String × Nat} (h₁ : keyLtB b a = false)
    (h₂ : keyLtB c b = false) : keyLtB c a = false := by
  by_contra hc
  have h : keyLtB c a = true := by
    cases h' : keyLtB c a with
    | false => exact absurd h' hc
    | true => rfl
  cases h' : keyLtB c b with
  | true => rw [h'] at h₂; exact Bool.noConfusion h₂
  | false =>
    cases h'' : keyLtB b c with
    | true => rw [keyLtB_trans h'' h] at h₁; exact Bool.noConfusion h₁
    | false =>
      have hcb : c = b := keyLtB_connex h' h''
      subst hcb
      rw [h] at h₁
      exact Bool.noConfusion h₁

/-- The descending (date, id) ORDER BY of `prevId`: `a` sorts before `b`
when `a`'s key is not below `b`'s. -/
def descRow (a b : TxnRow) : Prop :=
  keyLtB (rowKey a) (rowKey b) = false

/-- The ascending (date, id) ORDER BY of `nextId`. -/
def ascRow (a b : TxnRow) : Prop :=
  keyLtB (rowKey b) (rowKey a) = false

instance : DecidableRel descRow := fun a b => by
  unfold descRow; infer_instance

instance : DecidableRel ascRow := fun a b => by
  unfold ascRow; infer_instance

instance : IsTotal TxnRow descRow where
  total a b := by
    unfold descRow
    cases h : keyLtB (rowKey a) (rowKey b) with
    | false => exact Or.inl rfl
    | true => exact Or.inr (keyLtB_asymm h)

instance : IsTotal TxnRow ascRow where
  total a b := by
    unfold ascRow
    cases h : keyLtB (rowKey b) (rowKey a) with
    | false => exact Or.inl rfl
    | true => exact Or.inr (keyLtB_asymm h)

instance : IsTrans TxnRow descRow where
  trans _ _ _ hab hbc := keyLtB_le_le hbc hab

instance : IsTrans TxnRow ascRow where
  trans _ _ _ hab hbc := keyLtB_le_le hab hbc

/-- The optional reference argument of `prevId`/`nextId`. -/
structure TxnRef where
  id : Option Nat
  date : Option String
deriving DecidableEq, Repr

/-- JS truthiness of an optional string (`undefined` and `""` are falsy). -/
def truthyStr : Option String → Bool
  | none => false
  | some s => s != ""

/-- The WHERE clause of `prevId` on a reference:
`date < t.date OR (date = t.date AND id < t.id)`. -/
def rowBefore (r : TxnRow) (t : TxnRef) : Bool :=
  strLt r.date (t.date.getD "") ||
    (r.date == t.date.getD "" && decide (r.id < t.id.getD 0))

/-- The WHERE clause of `nextId` on a reference:
`date > t.date OR (date = t.date AND id > t.id)`. -/
def rowAfter (r : TxnRow) (t : TxnRef) : Bool :=
  strLt (t.date.getD "") r.date ||
    (r.date == t.date.getD "" && decide (t.id.getD 0 < r.id))

/-- The `LIMIT 1` + result extraction of the navigation queries: the id of
the first row of the ordered result, or the sentinel 0 when there is none
(`rows.length > 0 ? rows[0].id : 0`). -/
def pickFirst (l : List TxnRow) : Nat :=
  match l with
  | [] => 0
  | r :: _ => r.id

/-- `Transaction.prevId` over a stored row set: filter by type, restrict to
rows strictly before the reference only when `t && t.id && t.date` is
truthy, order by (date desc, id desc), take the first row's id, or 0. -/
def prevId (rows : List TxnRow) (t : Option TxnRef) (tf : TypeFilter) : Nat :=
  let q1 := rows.filter (typeMatches tf)
  let q2 := match t with
    | none => q1
    | some r =>
      if truthyId r.id && truthyStr r.date then
        q1.filter (fun row => rowBefore row r)
      else q1
  pickFirst (List.insertionSort descRow q2)

/-- `Transaction.nextId` over a stored row set: as `prevId`, with the
strictly-after restriction and ascending order. -/
def nextId (rows : List TxnRow) (t : Option TxnRef) (tf : TypeFilter) : Nat :=
  let q1 := rows.filter (typeMatches tf)
  let q2 := match t with
    | none => q1
    | some r =>
      if truthyId r.id && truthyStr r.date then
        q1.filter (fun row => rowAfter row r)
      else q1
  pickFirst (List.insertionSort ascRow q2)

/-- The date format check of `save`.  Modelled from the spec: `isDateOnly`
(src/core/date.ts is not part of the provided sources) accepts exactly the
ten character calendar-date strings of shape YYYY-MM-DD. -/
def isDateOnly (s : String) : Bool :=
  match s.toList with
  | [y₁, y₂, y₃, y₄, h₁, m₁, m₂, h₂, d₁, d₂] =>
    y₁.isDigit && y₂.isDigit && y₃.isDigit && y₄.isDigit && h₁ == '-' &&
      m₁.isDigit && m₂.isDigit && h₂ == '-' && d₁.isDigit && d₂.isDigit
  | _ => false

/-- The errors of the validation prefix of `Transaction.save`. -/
inductive SaveError
  | invalidDate
  | notBalanced
deriving DecidableEq, Repr

/-- The validation prefix of `Transaction.save`: reject an absent or
malformed date, then reject when the `balanced` getter is false; only then
does the commit proceed. -/
def Transaction.saveValidate (t : Transaction) : Except SaveError Unit :=
  match t.date with
  | none => Except.error SaveError.invalidDate
  | some d =>
    if isDateOnly d = false then Except.error SaveError.invalidDate
    else if t.balanced = false then Except.error SaveError.notBalanced
    else Except.ok ()

/-! Lemmas about the balances record built by `_getBalances`. -/

/-- The keys (currency codes) of a balances record. -/
def keysOf (acc : List (String × Int)) : List String :=
  acc.map Prod.fst

/-- The value a balances record associates to a currency (summing all
entries bearing that key; with nodup keys this is the unique entry). -/
def valD (acc : List (String × Int)) (c : String) : Int :=
  ((acc.filter (fun p => p.1 = c)).map Prod.snd).sum

/-- The per-currency total of a weighted element list. -/
def totalW (sum : Bool) (l : List Element) (c : String) : Int :=
  ((l.filter (fun e => e.currency = c)).map (weight sum)).sum

theorem totalW_nil (sum : Bool) (c : String) : totalW sum [] c = 0 := rfl

theorem totalW_cons (sum : Bool) (e : Element) (l : List Element)
    (c : String) :
    totalW sum (e :: l) c =
      (if e.currency = c then weight sum e else 0) + totalW sum l c := by
  by_cases h : e.currency = c
  · simp [totalW, List.filter_cons, h]
  · simp [totalW, List.filter_cons, h]

theorem valD_nil (c : String) : valD [] c = 0 := rfl

theorem valD_cons (p : String × Int) (acc : List (String × Int))
    (c : String) :
    valD (p :: acc) c = (if p.1 = c then p.2 else 0) + valD acc c := by
  by_cases h : p.1 = c
  · simp [valD, List.filter_cons, h]
  · simp [valD, List.filter_cons, h]

theorem valD_eq_zero {acc : List (String × Int)} {c : String}
    (h : ∀ q ∈ acc, q.1 ≠ c) : valD acc c = 0 := by
  induction acc with
  | nil => rfl
  | cons p acc ih =>
    rw [valD_cons, if_neg (h p (List.mem_cons_self p acc)), ih]
    · ring
    · intro q hq
      exact h q (List.mem_cons_of_mem p hq)

theorem addToRecord_cons_ne {p : String × Int} {c : String}
    (h : p.1 ≠ c) (acc : List (String × Int)) (v : Int) :
    addToRecord (p :: acc) c v = p :: addToRecord acc c v := by
  unfold addToRecord
  simp only [List.any_cons, decide_eq_true_eq]
  by_cases ha : acc.any (fun q => q.1 = c)
  · simp [ha, h]
  · simp [ha, h]

theorem map_upd_eq_self {acc : List (String × Int)} {c : String} {v : Int}
    (h : ∀ q ∈ acc, q.1 ≠ c) :
    acc.map (fun q => if q.1 = c then (q.1, q.2 + v) else q) = acc := by
  induction acc with
  | nil => rfl
  | cons p acc ih =>
    simp only [List.map_cons, if_neg (h p (List.mem_cons_self p acc))]
    rw [ih]
    intro q hq
    exact h q (List.mem_cons_of_mem p hq)

theorem mem_keys_addToRecord (acc : List (String × Int)) (c : String)
    (v : Int) (c' : String) :
    c' ∈ keysOf (addToRecord acc c v) ↔ c' ∈ keysOf acc ∨ c' = c := by
  unfold addToRecord
  by_cases ha : acc.any (fun q => q.1 = c)
  · simp only [ha, if_true]
    have hkeys : keysOf (acc.map (fun p => if p.1 = c then (p.1, p.2 + v) else p)) =
        keysOf acc := by
      unfold keysOf
      rw [List.map_map]
      apply List.map_congr_left
      intro q _
      by_cases hq : q.1 = c <;> simp [hq]
    rw [hkeys]
    have hc : c ∈ keysOf acc := by
      rcases List.any_eq_true.mp ha with ⟨q, hq, hqc⟩
      simp only [decide_eq_true_eq] at hqc
      exact hqc ▸ List.mem_map_of_mem Prod.fst hq
    constructor
    · exact Or.inl
    · rintro (h | rfl)
      · exact h
      · exact hc
  · simp only [ha, if_false]
    unfold keysOf
    simp

theorem nodup_keys_addToRecord {acc : List (String × Int)} (c : String)
    (v : Int) (h : (keysOf acc).Nodup) :
    (keysOf (addToRecord acc c v)).Nodup := by
  unfold addToRecord
  by_cases ha : acc.any (fun q => q.1 = c)
  · simp only [ha, if_true]
    have hkeys : keysOf (acc.map (fun p => if p.1 = c then (p.1, p.2 + v) else p)) =
        keysOf acc := by
      unfold keysOf
      rw [List.map_map]
      apply List.map_congr_left
      intro q _
      by_cases hq : q.1 = c <;> simp [hq]
    rw [hkeys]
    exact h
  · rw [if_neg ha]
    unfold keysOf
    rw [List.map_append]
    rw [List.nodup_append]
    refine ⟨h, List.nodup_singleton c, ?_⟩
    intro x hx hx'
    simp only [List.map_cons, List.map_nil, List.mem_singleton] at hx'
    subst hx'
    rcases List.mem_map.mp hx with ⟨q, hq, hqc⟩
    exact (List.any_eq_true.not.mp ha) ⟨q, hq, by simp [hqc]⟩

theorem valD_addToRecord {acc : List (String × Int)}
    (hnd : (keysOf acc).Nodup) (c : String) (v : Int) (c' : String) :
    valD (addToRecord acc c v) c' = valD acc c' + (if c' = c then v else 0) := by
  induction acc with
  | nil =>
    have h0 : addToRecord [] c v = [(c, v)] := rfl
    rw [h0, valD_cons, valD_nil]
    by_cases h : c' = c
    · simp [h]
    · simp [h, Ne.symm h]
  | cons p acc ih =>
    rw [keysOf, List.map_cons, List.nodup_cons] at hnd
    obtain ⟨hp, hnd'⟩ := hnd
    by_cases hpc : p.1 = c
    · have hnotin : ∀ q ∈ acc, q.1 ≠ c := by
        intro q hq hqc
        apply hp
        rw [hpc, ← hqc]
        exact List.mem_map_of_mem Prod.fst hq
      unfold addToRecord
      have ha : ((p :: acc).any fun q => decide (q.1 = c)) = true := by
        simp [List.any_cons, hpc]
      rw [if_pos ha]
      simp only [List.map_cons, if_pos hpc]
      rw [map_upd_eq_self hnotin]
      rw [valD_cons, valD_cons]
      by_cases hc : c' = c
      · rw [if_pos hc, if_pos (hpc.trans hc.symm), if_pos (hpc.trans hc.symm)]
        ring
      · have hpc' : ¬(p.1 = c') := by
          intro h
          exact hc (by rw [← h, hpc])
        rw [if_neg hc, if_neg hpc', if_neg hpc']
        ring
    · rw [addToRecord_cons_ne hpc, valD_cons, valD_cons, ih hnd']
      ring

/-- Folding the record update over an element list, starting from an
arbitrary record. -/
def foldGB (sum : Bool) (acc : List (String × Int)) (l : List Element) :
    List (String × Int) :=
  l.foldl (fun a e => addToRecord a e.currency (weight sum e)) acc

theorem balancesRec_eq_foldGB (sum : Bool) (l : List Element) :
    balancesRec sum l = foldGB sum [] l := rfl

theorem foldGB_cons (sum : Bool) (acc : List (String × Int)) (e : Element)
    (l : List Element) :
    foldGB sum acc (e :: l) =
      foldGB sum (addToRecord acc e.currency (weight sum e)) l := rfl

theorem nodup_keys_foldGB (sum : Bool) {acc : List (String × Int)}
    (l : List Element) (h : (keysOf acc).Nodup) :
    (keysOf (foldGB sum acc l)).Nodup := by
  induction l generalizing acc with
  | nil => exact h
  | cons e l ih =>
    rw [foldGB_cons]
    exact ih (nodup_keys_addToRecord _ _ h)

theorem mem_keys_foldGB (sum : Bool) (acc : List (String × Int))
    (l : List Element) (c : String) :
    c ∈ keysOf (foldGB sum acc l) ↔
      c ∈ keysOf acc ∨ c ∈ l.map (fun e => e.currency) := by
  induction l generalizing acc with
  | nil => simp [foldGB]
  | cons e l ih =>
    rw [foldGB_cons, ih, mem_keys_addToRecord]
    simp only [List.map_cons, List.mem_cons]
    tauto

theorem valD_foldGB (sum : Bool) {acc : List (String × Int)}
    (l : List Element) (hnd : (keysOf acc).Nodup) (c : String) :
    valD (foldGB sum acc l) c = valD acc c + totalW sum l c := by
  induction l generalizing acc with
  | nil => simp [foldGB, totalW_nil]
  | cons e l ih =>
    rw [foldGB_cons, ih (nodup_keys_addToRecord _ _ hnd),
      valD_addToRecord hnd, totalW_cons]
    by_cases h : e.currency = c
    · rw [if_pos h, if_pos h.symm]
      ring
    · rw [if_neg h, if_neg (Ne.symm h)]
      ring

theorem valD_of_mem {acc : List (String × Int)}
    (hnd : (keysOf acc).Nodup) {c : String} {v : Int}
    (h : (c, v) ∈ acc) : valD acc c = v := by
  induction acc with
  | nil => exact absurd h (List.not_mem_nil _)
  | cons p acc ih =>
    rw [keysOf, List.map_cons, List.nodup_cons] at hnd
    obtain ⟨hp, hnd'⟩ := hnd
    rcases List.mem_cons.mp h with rfl | h'
    · rw [valD_cons, if_pos rfl]
      have hz : ∀ q ∈ acc, q.1 ≠ c := by
        intro q hq hqc
        apply hp
        show c ∈ List.map Prod.fst acc
        rw [← hqc]
        exact List.mem_map_of_mem Prod.fst hq
      rw [valD_eq_zero hz]
      ring
    · have hcmem : c ∈ List.map Prod.fst acc := by
        have := List.mem_map_of_mem Prod.fst h'
        simpa using this
      have hpc : p.1 ≠ c := fun hpc => hp (hpc ▸ hcmem)
      rw [valD_cons, if_neg hpc, ih hnd' h']
      ring

theorem nodup_keys_balancesRec (sum : Bool) (l : List Element) :
    (keysOf (balancesRec sum l)).Nodup := by
  rw [balancesRec_eq_foldGB]
  exact nodup_keys_foldGB sum l (by simp [keysOf])

theorem mem_balancesRec_iff (sum : Bool) (l : List Element) (c : String)
    (v : Int) :
    (c, v) ∈ balancesRec sum l ↔
      c ∈ l.map (fun e => e.currency) ∧ v = totalW sum l c := by
  constructor
  · intro h
    have hc : c ∈ keysOf (balancesRec sum l) :=
      List.mem_map_of_mem Prod.fst h
    rw [balancesRec_eq_foldGB, mem_keys_foldGB] at hc
    have hc' : c ∈ l.map (fun e => e.currency) := by
      rcases hc with hc | hc
      · simp [keysOf] at hc
      · exact hc
    refine ⟨hc', ?_⟩
    have hv := valD_of_mem (nodup_keys_balancesRec sum l) h
    rw [balancesRec_eq_foldGB, valD_foldGB sum l (by simp [keysOf]), valD_nil,
      zero_add] at hv
    exact hv.symm
  · rintro ⟨hc, rfl⟩
    have hc' : c ∈ keysOf (balancesRec sum l) := by
      rw [balancesRec_eq_foldGB, mem_keys_foldGB]
      exact Or.inr hc
    rcases List.mem_map.mp hc' with ⟨p, hp, hpc⟩
    have hv := valD_of_mem (nodup_keys_balancesRec sum l) (show (p.1, p.2) ∈ _ from hp)
    rw [balancesRec_eq_foldGB, valD_foldGB sum l (by simp [keysOf]), valD_nil,
      zero_add] at hv
    have : p = (c, totalW sum l c) := by
      cases p
      simp only at hpc hv
      subst hpc
      rw [hv]
    exact this ▸ hp

/-- The unsorted `Money` list underlying `_getBalances`. -/
def moneysOf (sum : Bool) (l : List Element) : List Money :=
  (balancesRec sum l).map (fun p => ⟨p.2, p.1⟩)

theorem getBalances_eq_sort (l : List Element) (sum : Bool) :
    _getBalances l sum = List.insertionSort moneyLe (moneysOf sum l) := rfl

theorem mem_moneysOf (sum : Bool) (l : List Element) (m : Money) :
    m ∈ moneysOf sum l ↔
      m.currency ∈ l.map (fun e => e.currency) ∧
        m.amount = totalW sum l m.currency := by
  unfold moneysOf
  rw [List.mem_map]
  constructor
  · rintro ⟨p, hp, rfl⟩
    have := (mem_balancesRec_iff sum l p.1 p.2).mp hp
    exact this
  · rintro ⟨hc, ha⟩
    refine ⟨(m.currency, m.amount), ?_, rfl⟩
    exact (mem_balancesRec_iff sum l m.currency m.amount).mpr ⟨hc, ha⟩

theorem nodup_moneysOf (sum : Bool) (l : List Element) :
    (moneysOf sum l).Nodup := by
  unfold moneysOf
  apply List.Nodup.map
  · intro p q hpq
    simp only [Money.mk.injEq] at hpq
    exact Prod.ext hpq.2 hpq.1
  · exact List.Nodup.of_map Prod.fst (nodup_keys_balancesRec sum l)

theorem nodup_currency_moneysOf (sum : Bool) (l : List Element) :
    ((moneysOf sum l).map Money.currency).Nodup := by
  unfold moneysOf
  rw [List.map_map]
  exact nodup_keys_balancesRec sum l

/-- The strict currency order on `Money` entries. -/
def moneyLt (a b : Money) : Prop :=
  strLt a.currency b.currency = true

instance : IsAntisymm Money moneyLt where
  antisymm a b h₁ h₂ := absurd h₂ (by unfold moneyLt; simp [strLt_asymm h₁])

theorem pairwise_moneyLt_of_le {L : List Money}
    (h : List.Pairwise moneyLe L) (hn : (L.map Money.currency).Nodup) :
    List.Pairwise moneyLt L := by
  have hne : List.Pairwise (fun a b : Money => a.currency ≠ b.currency) L :=
    List.pairwise_map.mp hn
  refine (h.and hne).imp ?_
  rintro a b ⟨hle, hab⟩
  rcases strLt_trichotomy a.currency b.currency with h' | h' | h'
  · exact h'
  · exact absurd h' hab
  · exact absurd h' (by unfold moneyLe at hle; simp [hle])

theorem totalW_perm (sum : Bool) {l₁ l₂ : List Element} (h : l₁.Perm l₂)
    (c : String) : totalW sum l₁ c = totalW sum l₂ c :=
  List.Perm.sum_eq (List.Perm.map _ (List.Perm.filter _ h))

theorem moneysOf_perm (sum : Bool) {l₁ l₂ : List Element} (h : l₁.Perm l₂) :
    (moneysOf sum l₁).Perm (moneysOf sum l₂) := by
  rw [List.perm_ext_iff_of_nodup (nodup_moneysOf sum l₁) (nodup_moneysOf sum l₂)]
  intro m
  rw [mem_moneysOf, mem_moneysOf]
  have hc := @List.Perm.mem_iff String m.currency _ _ (List.Perm.map (fun e => e.currency) h)
  rw [totalW_perm sum h, hc]

theorem getBalances_perm (l : List Element) (sum : Bool) :
    (_getBalances l sum).Perm (moneysOf sum l) := by
  rw [getBalances_eq_sort]
  exact List.perm_insertionSort moneyLe (moneysOf sum l)

theorem getBalances_sorted_strict (l : List Element) (sum : Bool) :
    List.Pairwise moneyLt (_getBalances l sum) := by
  apply pairwise_moneyLt_of_le
  · exact List.sorted_insertionSort moneyLe (moneysOf sum l)
  · exact ((getBalances_perm l sum).map Money.currency).nodup_iff.mpr
      (nodup_currency_moneysOf sum l)

theorem getBalances_eq_of_perm (sum : Bool) {l₁ l₂ : List Element}
    (h : l₁.Perm l₂) : _getBalances l₁ sum = _getBalances l₂ sum := by
  have hperm : (_getBalances l₁ sum).Perm (_getBalances l₂ sum) :=
    ((getBalances_perm l₁ sum).trans (moneysOf_perm sum h)).trans
      (getBalances_perm l₂ sum).symm
  exact List.eq_of_perm_of_sorted hperm
    (getBalances_sorted_strict l₁ sum) (getBalances_sorted_strict l₂ sum)

theorem isBalanced_iff (es : List Element) :
    isBalanced es = true ↔
      ∀ c ∈ es.map (fun e => e.currency), totalW false es c = 0 := by
  unfold isBalanced
  rw [List.all_eq_true]
  constructor
  · intro h c hc
    have hm : (⟨totalW false es c, c⟩ : Money) ∈ moneysOf false es :=
      (mem_moneysOf false es _).mpr ⟨hc, rfl⟩
    have hm' : (⟨totalW false es c, c⟩ : Money) ∈ _getBalances es false :=
      (getBalances_perm es false).mem_iff.mpr hm
    have := h _ hm'
    simpa using this
  · intro h m hm
    have hm' : m ∈ moneysOf false es :=
      (getBalances_perm es false).mem_iff.mp hm
    obtain ⟨hc, ha⟩ := (mem_moneysOf false es m).mp hm'
    simp [ha, h m.currency hc]

/-! Lemmas about the merge loop, for the id-preservation and size claims. -/

theorem getD_set_ne {α : Type} {l : List α} {i j : Nat} (h : i ≠ j)
    (a d : α) : (l.set i a).getD j d = l.getD j d := by
  rw [List.getD_eq_getElem?_getD, List.getD_eq_getElem?_getD,
    List.getElem?_set_ne h]

theorem getD_set_self {α : Type} {l : List α} {i : Nat} (h : i < l.length)
    (a d : α) : (l.set i a).getD i d = a := by
  rw [List.getD_eq_getElem?_getD, List.getElem?_set_self h]
  rfl

theorem getD_length_le {α : Type} {l : List α} {j : Nat}
    (h : l.length ≤ j) (d : α) : l.getD j d = d := by
  rw [List.getD_eq_getElem?_getD, List.getElem?_eq_none h]
  rfl

theorem getD_append_self {α : Type} (l : List α) (e d : α) :
    (l ++ [e]).getD l.length d = e := by
  rw [List.getD_append_right l [e] d l.length (le_refl _), Nat.sub_self]
  rfl

theorem getD_append_gt {α : Type} {l : List α} {j : Nat}
    (h : l.length < j) (e d : α) : (l ++ [e]).getD j d = d := by
  rw [List.getD_append_right l [e] d j (le_of_lt h)]
  apply getD_length_le
  simp
  omega

theorem findIdxById_spec {els : List Element} {k j : Nat}
    (h : findIdxById els k = some j) :
    j < els.length ∧ (els.getD j default).id = some k := by
  induction els generalizing j with
  | nil => exact absurd h (by simp [findIdxById])
  | cons e rest ih =>
    unfold findIdxById at h
    by_cases he : e.id == some k
    · rw [if_pos he] at h
      cases h
      exact ⟨Nat.succ_pos _, by simpa using he⟩
    · rw [if_neg he] at h
      cases hr : findIdxById rest k with
      | none =>
        rw [hr] at h
        exact Option.noConfusion h
      | some j' =>
        rw [hr] at h
        injection h with h
        subst h
        obtain ⟨hlt, hid⟩ := ih hr
        exact ⟨Nat.succ_lt_succ hlt, by simpa using hid⟩

theorem place_cases {e : Element} {els els' : List Element} {j : Nat}
    (hplace : placeElement els e = Except.ok (els', j)) :
    (e.id = none ∧ els' = els ++ [e] ∧ j = els.length) ∨
      (∃ k, e.id = some k ∧ findIdxById els k = some j ∧
        els' = els.set j e) := by
  unfold placeElement at hplace
  split at hplace
  · rename_i hid
    simp only [Except.ok.injEq, Prod.mk.injEq] at hplace
    exact Or.inl ⟨hid, hplace.1.symm, hplace.2.symm⟩
  · rename_i k hid
    split at hplace
    · rename_i j₀ hf
      simp only [Except.ok.injEq, Prod.mk.injEq] at hplace
      obtain ⟨hels, hj⟩ := hplace
      subst hj
      exact Or.inr ⟨k, hid, hf, hels.symm⟩
    · exact absurd hplace (by simp)

theorem place_preserves_ids {e : Element} {els els' : List Element} {j : Nat}
    (hplace : placeElement els e = Except.ok (els', j)) :
    els.length ≤ els'.length ∧
      ∀ j', j' < els.length →
        (els'.getD j' default).id = (els.getD j' default).id := by
  rcases place_cases hplace with ⟨_, rfl, _⟩ | ⟨k, hid, hf, rfl⟩
  · refine ⟨by simp, fun j' hj' => ?_⟩
    rw [List.getD_append els [e] default j' hj']
  · obtain ⟨hjlt, hjid⟩ := findIdxById_spec hf
    refine ⟨by simp, fun j' hj' => ?_⟩
    by_cases hjj : j = j'
    · subst hjj
      rw [getD_set_self hjlt, hid, hjid]
    · rw [getD_set_ne hjj]

theorem merge_place_base {e : Element} {els els' : List Element}
    {j base : Nat}
    (hbase : ∀ j', base ≤ j' → (els.getD j' default).id = none)
    (hplace : placeElement els e = Except.ok (els', j)) :
    ∀ j', base ≤ j' → (els'.getD j' default).id = none := by
  rcases place_cases hplace with ⟨hid, rfl, _⟩ | ⟨k, hid, hf, rfl⟩
  · intro j' hj'
    rcases lt_trichotomy j' els.length with h | h | h
    · rw [List.getD_append els [e] default j' h]
      exact hbase j' hj'
    · subst h
      rw [getD_append_self, hid]
    · rw [getD_append_gt h]
      rfl
  · obtain ⟨hjlt, hjid⟩ := findIdxById_spec hf
    have hjbase : j < base := by
      by_contra hge
      have := hbase j (le_of_not_lt hge)
      rw [this] at hjid
      exact Option.noConfusion hjid
    intro j' hj'
    have hne : j ≠ j' := by omega
    rw [getD_set_ne hne]
    exact hbase j' hj'

theorem merge_place_step {e : Element} {els els' out : List Element}
    {j base : Nat} {ie : IElement} {rest : List IElement}
    (hid : e.id = ie.id)
    (hplace : placeElement els e = Except.ok (els', j))
    (ihres : out.length = els'.length +
        (rest.filter (fun x => x.id == none)).length ∧
      (∀ j', j' < els'.length →
        (out.getD j' default).id = (els'.getD j' default).id) ∧
      (∀ j', base ≤ j' → (out.getD j' default).id = none) ∧
      (∀ x ∈ rest, ∀ k, x.id = some k →
        ∃ j', j' < els'.length ∧ (els'.getD j' default).id = some k)) :
    out.length = els.length +
        ((ie :: rest).filter (fun x => x.id == none)).length ∧
      (∀ j', j' < els.length →
        (out.getD j' default).id = (els.getD j' default).id) ∧
      (∀ j', base ≤ j' → (out.getD j' default).id = none) ∧
      (∀ x ∈ ie :: rest, ∀ k, x.id = some k →
        ∃ j', j' < els.length ∧ (els.getD j' default).id = some k) := by
  obtain ⟨ih₁, ih₂, ih₃, ih₄⟩ := ihres
  obtain ⟨hlen, hids⟩ := place_preserves_ids hplace
  refine ⟨?_, ?_, ih₃, ?_⟩
  · rcases place_cases hplace with ⟨hide, rfl, _⟩ | ⟨k, hide, hf, rfl⟩
    · have hie : (ie.id == none) = true := by
        rw [← hid, hide]
        rfl
      rw [List.filter_cons, hie, ih₁]
      simp
      omega
    · have hie : (ie.id == none) = false := by
        rw [← hid, hide]
        rfl
      rw [List.filter_cons, hie, ih₁]
      simp
  · intro j' hj'
    rw [ih₂ j' (lt_of_lt_of_le hj' hlen), hids j' hj']
  · intro x hx k hk
    rcases List.mem_cons.mp hx with rfl | hx'
    · rcases place_cases hplace with ⟨hide, rfl, _⟩ | ⟨k', hide, hf, rfl⟩
      · rw [hid, hk] at hide
        exact Option.noConfusion hide
      · rw [hid, hk] at hide
        cases hide
        exact ⟨j, (findIdxById_spec hf).1, (findIdxById_spec hf).2⟩
    · obtain ⟨j', hj', hjid⟩ := ih₄ x hx' k hk
      rcases place_cases hplace with ⟨hide, rfl, _⟩ | ⟨k', hide, hf, rfl⟩
      · rcases lt_trichotomy j' els.length with h | h | h
        · rw [List.getD_append els [e] default j' h] at hjid
          exact ⟨j', h, hjid⟩
        · subst h
          rw [getD_append_self, hide] at hjid
          exact Option.noConfusion hjid
        · rw [getD_append_gt h] at hjid
          exact Option.noConfusion hjid
      · obtain ⟨hjlt, hjid'⟩ := findIdxById_spec hf
        rw [List.length_set] at hj'
        by_cases hjj : j = j'
        · subst hjj
          rw [getD_set_self hjlt, hide] at hjid
          injection hjid with hkk
          subst hkk
          exact ⟨j, hjlt, hjid'⟩
        · rw [getD_set_ne hjj] at hjid
          exact ⟨j', hj', hjid⟩

theorem mergeLoop_ok_spec (base : Nat) :
    ∀ (list : List IElement) (els out : List Element) (pidx : Option Nat)
      (i : Nat),
      (∀ j, base ≤ j → (els.getD j default).id = none) →
      mergeLoop els pidx i list = Except.ok out →
      out.length = els.length +
          (list.filter (fun ie => ie.id == none)).length ∧
        (∀ j, j < els.length →
          (out.getD j default).id = (els.getD j default).id) ∧
        (∀ j, base ≤ j → (out.getD j default).id = none) ∧
        (∀ ie ∈ list, ∀ k, ie.id = some k →
          ∃ j, j < els.length ∧ (els.getD j default).id = some k) := by
  intro list
  induction list with
  | nil =>
    intro els out pidx i hbase h
    simp only [mergeLoop] at h
    cases h
    exact ⟨by simp, fun j _ => rfl, hbase, by simp⟩
  | cons ie rest ih =>
    intro els out pidx i hbase h
    rw [mergeLoop] at h
    by_cases hp : (Element.construct ie).parentId = -1
    · rw [if_pos hp] at h
      rcases hplace : placeElement els { Element.construct ie with _parent := pidx }
        with k | ⟨els', j⟩
      · rw [hplace] at h
        exact Except.noConfusion h
      · rw [hplace] at h
        exact merge_place_step rfl hplace
          (ih els' out pidx (i + 1)
            (merge_place_base hbase hplace) h)
    · rw [if_neg hp] at h
      rcases hplace : placeElement els { Element.construct ie with parentId := 0 }
        with k | ⟨els', j⟩
      · rw [hplace] at h
        exact Except.noConfusion h
      · rw [hplace] at h
        exact merge_place_step rfl hplace
          (ih els' out (some j) (i + 1)
            (merge_place_base hbase hplace) h)

theorem mergeElements_ok_inv {tid : Option Nat} {cur : Option (List Element)}
    {list : List IElement} {es : List Element}
    (h : mergeElements tid cur list = Except.ok es) :
    mergeLoop (cur.getD []) none 0 list = Except.ok es ∧
      isBalanced es = true := by
  unfold mergeElements at h
  split at h
  · exact Except.noConfusion h
  · split at h
    · exact Except.noConfusion h
    · split at h
      · exact Except.noConfusion h
      · split at h
        · exact Except.noConfusion h
        · rename_i els hl
          split at h
          · rename_i hb
            injection h with h
            subst h
            exact ⟨hl, hb⟩
          · exact Except.noConfusion h

/-! Lemmas about the `_save` partition. -/

theorem partitionEls_foldl (l : List (Nat × Element))
    (acc : List (Nat × Element) × List (Nat × Element) × List (Nat × Element)) :
    l.foldl (fun acc ie =>
      if isKeep ie.2 then
        if hasParentRef ie.2 then (acc.1, acc.2.1 ++ [ie], acc.2.2)
        else (acc.1 ++ [ie], acc.2.1, acc.2.2)
      else if truthyId ie.2.id then (acc.1, acc.2.1, acc.2.2 ++ [ie])
      else acc) acc =
    (acc.1 ++ l.filter (fun ie => isKeep ie.2 && !hasParentRef ie.2),
      acc.2.1 ++ l.filter (fun ie => isKeep ie.2 && hasParentRef ie.2),
      acc.2.2 ++ l.filter (fun ie => !(isKeep ie.2) && truthyId ie.2.id)) := by
  induction l generalizing acc with
  | nil => simp
  | cons ie l ih =>
    rw [List.foldl_cons, ih]
    obtain ⟨a, b, c⟩ := acc
    by_cases hk : isKeep ie.2
    · by_cases hr : hasParentRef ie.2
      · simp [List.filter_cons, hk, hr]
      · simp [List.filter_cons, hk, hr]
    · by_cases ht : truthyId ie.2.id
      · simp [List.filter_cons, hk, ht]
      · simp [List.filter_cons, hk, ht]

theorem partitionEls_eq (els : List Element) :
    partitionEls els =
      (els.enum.filter (fun ie => isKeep ie.2 && !hasParentRef ie.2),
        els.enum.filter (fun ie => isKeep ie.2 && hasParentRef ie.2),
        els.enum.filter (fun ie => !(isKeep ie.2) && truthyId ie.2.id)) := by
  unfold partitionEls
  rw [partitionEls_foldl]
  simp

theorem enum_filter_map_snd (els : List Element) (q : Element → Bool) :
    (els.enum.filter (fun ie => q ie.2)).map Prod.snd = els.filter q := by
  have h := @List.filter_map (Nat × Element) Element q Prod.snd els.enum
  rw [List.enum_map_snd] at h
  rw [h]
  rfl

theorem mem_enum_getD {els : List Element} {p : Nat × Element}
    (h : p ∈ els.enum) :
    p.1 < els.length ∧ els.getD p.1 default = p.2 := by
  rw [List.mem_enum_iff_getElem?] at h
  obtain ⟨hlt, hget⟩ := List.getElem?_eq_some.mp h
  refine ⟨hlt, ?_⟩
  rw [List.getD_eq_getElem?_getD, h]
  rfl

theorem enum_fst_inj {els : List Element} {p q : Nat × Element}
    (hp : p ∈ els.enum) (hq : q ∈ els.enum) (h : p.1 = q.1) : p = q := by
  rw [List.mem_enum_iff_getElem?] at hp hq
  rw [h] at hp
  rw [hp] at hq
  injection hq with hq
  exact Prod.ext h hq

theorem filter_enum_fst_nodup (els : List Element) (q : Nat × Element → Bool) :
    ((els.enum.filter q).map Prod.fst).Nodup := by
  have hs : (els.enum.filter q).Sublist els.enum := List.filter_sublist els.enum
  have := List.Sublist.map Prod.fst hs
  rw [List.enum_map_fst els] at this
  exact List.Sublist.nodup this (List.nodup_range els.length)

theorem repointChildren_getD_not_mem {w : List Element} {cs : List Nat}
    {d i : Nat} (h : i ∉ cs) :
    (repointChildren w cs d).getD i default = w.getD i default := by
  induction cs generalizing w with
  | nil => rfl
  | cons c cs ih =>
    have hic : i ≠ c := fun hh => h (hh ▸ List.mem_cons_self c cs)
    have hics : i ∉ cs := fun hh => h (List.mem_cons_of_mem c hh)
    unfold repointChildren
    rw [List.foldl_cons]
    by_cases hj : jsEqIdInt (w.getD c default).parentId ((w.getD d default).id)
    · rw [if_pos hj]
      have := @ih (w.set c { w.getD c default with _parent := some d }) hics
      unfold repointChildren at this
      rw [this, getD_set_ne (Ne.symm hic)]
    · rw [if_neg hj]
      have := @ih w hics
      unfold repointChildren at this
      rw [this]

theorem deleteStep_foldl_snapshots (cs : List Nat) (w0 : List Element) :
    ∀ (ds : List Nat) (w acc : List Element),
      (∀ d ∈ ds, d ∉ cs) →
      ds.Nodup →
      (∀ d ∈ ds, w.getD d default = w0.getD d default) →
      (ds.foldl (deleteStep cs) (w, acc)).2 =
        acc ++ ds.map (fun d => w0.getD d default) := by
  intro ds
  induction ds with
  | nil =>
    intro w acc _ _ _
    simp
  | cons d ds ih =>
    intro w acc hcs hnd hw
    rw [List.foldl_cons]
    have hdcs : d ∉ cs := hcs d (List.mem_cons_self d ds)
    have hstep : deleteStep cs (w, acc) d =
        ((repointChildren w cs d).set d
          { (repointChildren w cs d).getD d default with id := some 0 },
          acc ++ [(repointChildren w cs d).getD d default]) := rfl
    rw [hstep]
    have hrep : (repointChildren w cs d).getD d default = w0.getD d default := by
      rw [repointChildren_getD_not_mem hdcs]
      exact hw d (List.mem_cons_self d ds)
    rw [List.nodup_cons] at hnd
    obtain ⟨hdds, hnd'⟩ := hnd
    rw [ih _ _ (fun d' hd' => hcs d' (List.mem_cons_of_mem d hd')) hnd' ?hagree]
    · rw [hrep, List.map_cons, List.append_assoc]
      rfl
    case hagree =>
      intro d' hd'
      have hne : d ≠ d' := fun hh => hdds (hh ▸ hd')
      rw [getD_set_ne hne, repointChildren_getD_not_mem
        (hcs d' (List.mem_cons_of_mem d hd'))]
      exact hw d' (List.mem_cons_of_mem d hd')

theorem partition_disjoint_cd (w0 : List Element) :
    ∀ i, i ∈ (partitionEls w0).2.1.map Prod.fst →
      i ∈ (partitionEls w0).2.2.map Prod.fst → False := by
  intro i hc hd
  rw [partitionEls_eq] at hc hd
  simp only [List.mem_map] at hc hd
  obtain ⟨p, hp, hpi⟩ := hc
  obtain ⟨q, hq, hqi⟩ := hd
  rw [List.mem_filter] at hp hq
  have hpq : p = q := enum_fst_inj hp.1 hq.1 (hpi.trans hqi.symm)
  subst hpq
  have h₁ := hp.2
  have h₂ := hq.2
  simp only [Bool.and_eq_true, Bool.not_eq_true'] at h₁ h₂
  rw [h₁.1] at h₂
  exact Bool.noConfusion h₂.1

theorem save_deleted_prefix (tid fresh : Nat) (els : List Element) :
    ∃ rest, (_save tid fresh els).deleted =
      ((partitionEls (setTxnIds (some tid) els)).2.2.map Prod.snd) ++ rest := by
  have hsnap : (deletesPhase (setTxnIds (some tid) els)
      ((partitionEls (setTxnIds (some tid) els)).2.1.map Prod.fst)
      ((partitionEls (setTxnIds (some tid) els)).2.2.map Prod.fst)).2 =
      (partitionEls (setTxnIds (some tid) els)).2.2.map Prod.snd := by
    unfold deletesPhase
    rw [deleteStep_foldl_snapshots _ (setTxnIds (some tid) els) _ _ _
      (fun d hd hc => partition_disjoint_cd _ d hc hd)
      (by
        rw [partitionEls_eq]
        exact filter_enum_fst_nodup _ _)
      (fun d _ => rfl)]
    rw [List.nil_append, List.map_map]
    apply List.map_congr_left
    intro p hp
    have hpmem : p ∈ (setTxnIds (some tid) els).enum := by
      have : (partitionEls (setTxnIds (some tid) els)).2.2.Sublist
          (setTxnIds (some tid) els).enum := by
        rw [partitionEls_eq]
        exact List.filter_sublist _
      exact this.mem hp
    exact (mem_enum_getD hpmem).2
  exact ⟨(childrenPhase (parentsPhase (deletesPhase (setTxnIds (some tid) els)
      ((partitionEls (setTxnIds (some tid) els)).2.1.map Prod.fst)
      ((partitionEls (setTxnIds (some tid) els)).2.2.map Prod.fst)).1
      ((partitionEls (setTxnIds (some tid) els)).1.map Prod.fst) fresh).1
      ((partitionEls (setTxnIds (some tid) els)).2.1.map Prod.fst)
      (parentsPhase (deletesPhase (setTxnIds (some tid) els)
      ((partitionEls (setTxnIds (some tid) els)).2.1.map Prod.fst)
      ((partitionEls (setTxnIds (some tid) els)).2.2.map Prod.fst)).1
      ((partitionEls (setTxnIds (some tid) els)).1.map Prod.fst) fresh).2.2).2.2.1,
    by rw [← hsnap]; rfl⟩

/-! Lemmas about the ordered LIMIT 1 extraction of `prevId`/`nextId`. -/

theorem pickFirst_desc_spec (q : List TxnRow) :
    (q = [] ∧ pickFirst (List.insertionSort descRow q) = 0) ∨
      (∃ r ∈ q, pickFirst (List.insertionSort descRow q) = r.id ∧
        ∀ x ∈ q, keyLtB (rowKey r) (rowKey x) = false) := by
  cases hs : List.insertionSort descRow q with
  | nil =>
    left
    have hperm := List.perm_insertionSort descRow q
    rw [hs] at hperm
    refine ⟨hperm.symm.eq_nil, ?_⟩
    rfl
  | cons r rest =>
    right
    have hperm := List.perm_insertionSort descRow q
    rw [hs] at hperm
    refine ⟨r, hperm.mem_iff.mp (List.mem_cons_self r rest), by rfl, ?_⟩
    intro x hx
    rcases List.mem_cons.mp (hperm.mem_iff.mpr hx) with rfl | hx'
    · exact keyLtB_irrefl _
    · have hsorted := List.sorted_insertionSort descRow q
      rw [hs] at hsorted
      exact (List.sorted_cons.mp hsorted).1 x hx'

theorem pickFirst_asc_spec (q : List TxnRow) :
    (q = [] ∧ pickFirst (List.insertionSort ascRow q) = 0) ∨
      (∃ r ∈ q, pickFirst (List.insertionSort ascRow q) = r.id ∧
        ∀ x ∈ q, keyLtB (rowKey x) (rowKey r) = false) := by
  cases hs : List.insertionSort ascRow q with
  | nil =>
    left
    have hperm := List.perm_insertionSort ascRow q
    rw [hs] at hperm
    refine ⟨hperm.symm.eq_nil, ?_⟩
    rfl
  | cons r rest =>
    right
    have hperm := List.perm_insertionSort ascRow q
    rw [hs] at hperm
    refine ⟨r, hperm.mem_iff.mp (List.mem_cons_self r rest), by rfl, ?_⟩
    intro x hx
    rcases List.mem_cons.mp (hperm.mem_iff.mpr hx) with rfl | hx'
    · exact keyLtB_irrefl _
    · have hsorted := List.sorted_insertionSort ascRow q
      rw [hs] at hsorted
      exact (List.sorted_cons.mp hsorted).1 x hx'

/-! The claims. -/

/-- C1: for every initial element list and candidate list, if `mergeElements`
succeeds then the resulting element list satisfies `isBalanced`: for every
currency appearing among the elements, the sum of drcr (sign) times amount
over the elements of that currency equals 0. -/
theorem mergeElements_ok_isBalanced (tid : Option Nat)
    (cur : Option (List Element)) (list : List IElement) (es : List Element)
    (h : mergeElements tid cur list = Except.ok es) :
    isBalanced es = true ∧
      ∀ c ∈ es.map (fun e => e.currency),
        ((es.filter (fun e => e.currency = c)).map
          (fun e => e.drcr * e.amount)).sum = 0 := by
  obtain ⟨-, hb⟩ := mergeElements_ok_inv h
  refine ⟨hb, ?_⟩
  intro c hc
  exact (isBalanced_iff es).mp hb c hc

/-- C1 witness: scenario C of the spec, a debit and a matching credit of 10
USD merge successfully and the result balances. -/
theorem mergeElements_ok_isBalanced_witness :
    isBalanced [⟨none, none, 1, 1, 10, "USD", 0, 0, "", none⟩,
        ⟨none, none, 2, -1, 10, "USD", 0, 0, "", none⟩] = true ∧
      ∀ c ∈ ([⟨none, none, 1, 1, 10, "USD", 0, 0, "", none⟩,
          ⟨none, none, 2, -1, 10, "USD", 0, 0, "", none⟩] :
            List Element).map (fun e => e.currency),
        ((([⟨none, none, 1, 1, 10, "USD", 0, 0, "", none⟩,
            ⟨none, none, 2, -1, 10, "USD", 0, 0, "", none⟩] :
              List Element).filter (fun e => e.currency = c)).map
          (fun e => e.drcr * e.amount)).sum = 0 :=
  mergeElements_ok_isBalanced none none
    [⟨none, none, 1, 1, 10, "USD", 0, 0, ""⟩,
      ⟨none, none, 2, -1, 10, "USD", 0, 0, ""⟩]
    [⟨none, none, 1, 1, 10, "USD", 0, 0, "", none⟩,
      ⟨none, none, 2, -1, 10, "USD", 0, 0, "", none⟩] rfl

/-- C2: on every failing `mergeElements` call the transaction's `elements`
field is unchanged; only on full success is it replaced by the working
copy. -/
theorem mergeElementsRun_failure_frame (t : Transaction)
    (list : List IElement) :
    (∀ err, (t.mergeElementsRun list).1 = Except.error err →
      (t.mergeElementsRun list).2 = t) ∧
    (∀ es, mergeElements t.id t.elements list = Except.ok es →
      (t.mergeElementsRun list).2 = { t with elements := some es }) := by
  cases h : mergeElements t.id t.elements list with
  | ok es =>
    refine ⟨?_, ?_⟩
    · intro err herr
      simp only [Transaction.mergeElementsRun, h] at herr
      exact Except.noConfusion herr
    · intro es' hes'
      injection hes' with hes'
      subst hes'
      simp only [Transaction.mergeElementsRun, h]
  | error e =>
    refine ⟨?_, ?_⟩
    · intro err _
      simp only [Transaction.mergeElementsRun, h]
    · intro es' hes'
      exact Except.noConfusion hes'

/-- C2 witness: merging an empty candidate list into a transaction fails
with the no-items error and leaves the transaction unchanged. -/
theorem mergeElementsRun_failure_frame_witness :
    (Transaction.mergeElementsRun
        ⟨some 1, "", none, some "2020-01-01", none, none,
          some [⟨some 1, some 1, 1, 1, 5, "USD", 0, 0, "", none⟩,
            ⟨some 2, some 1, 2, -1, 5, "USD", 0, 0, "", none⟩]⟩ []).1 =
      Except.error MergeError.noItems ∧
    (Transaction.mergeElementsRun
        ⟨some 1, "", none, some "2020-01-01", none, none,
          some [⟨some 1, some 1, 1, 1, 5, "USD", 0, 0, "", none⟩,
            ⟨some 2, some 1, 2, -1, 5, "USD", 0, 0, "", none⟩]⟩ []).2 =
      ⟨some 1, "", none, some "2020-01-01", none, none,
        some [⟨some 1, some 1, 1, 1, 5, "USD", 0, 0, "", none⟩,
          ⟨some 2, some 1, 2, -1, 5, "USD", 0, 0, "", none⟩]⟩ :=
  ⟨rfl,
    (mergeElementsRun_failure_frame
      ⟨some 1, "", none, some "2020-01-01", none, none,
        some [⟨some 1, some 1, 1, 1, 5, "USD", 0, 0, "", none⟩,
          ⟨some 2, some 1, 2, -1, 5, "USD", 0, 0, "", none⟩]⟩ []).1
      MergeError.noItems rfl⟩

/-- C6: on every successful `mergeElements` call the resulting list is as
long as the previous list plus the number of id-less candidates, the ids
sitting at the previously occupied positions are unchanged (a candidate
carrying an id replaces the element bearing that id in place), and every id
carried by a candidate already occurs in the previous list. -/
theorem mergeElements_id_preservation (tid : Option Nat)
    (cur : Option (List Element)) (list : List IElement) (es : List Element)
    (h : mergeElements tid cur list = Except.ok es) :
    es.length = (cur.getD []).length +
        (list.filter (fun ie => ie.id == none)).length ∧
      (∀ j, j < (cur.getD []).length →
        (es.getD j default).id = ((cur.getD []).getD j default).id) ∧
      (∀ ie ∈ list, ∀ k, ie.id = some k →
        ∃ j, j < (cur.getD []).length ∧
          ((cur.getD []).getD j default).id = some k) := by
  obtain ⟨hl, -⟩ := mergeElements_ok_inv h
  have hspec := mergeLoop_ok_spec (cur.getD []).length list (cur.getD []) es
    none 0 (fun j hj => by rw [getD_length_le hj]; rfl) hl
  exact ⟨hspec.1, hspec.2.1, hspec.2.2.2⟩

/-- C6 witness: one candidate reusing id 1 replaces the stored element in
place, one id-less candidate appends, so two stored elements become three. -/
theorem mergeElements_id_preservation_witness :
    ([⟨some 1, none, 1, 1, 7, "USD", 0, 0, "", none⟩,
        ⟨some 2, none, 2, -1, 5, "USD", 0, 0, "", none⟩,
        ⟨none, none, 3, -1, 2, "USD", 0, 0, "", none⟩] : List Element).length =
      ([⟨some 1, none, 1, 1, 5, "USD", 0, 0, "", none⟩,
        ⟨some 2, none, 2, -1, 5, "USD", 0, 0, "", none⟩] :
          List Element).length +
        (([⟨some 1, none, 1, 1, 7, "USD", 0, 0, ""⟩,
          ⟨none, none, 3, -1, 2, "USD", 0, 0, ""⟩] :
            List IElement).filter (fun ie => ie.id == none)).length ∧
      (∀ j, j < ([⟨some 1, none, 1, 1, 5, "USD", 0, 0, "", none⟩,
          ⟨some 2, none, 2, -1, 5, "USD", 0, 0, "", none⟩] :
            List Element).length →
        (([⟨some 1, none, 1, 1, 7, "USD", 0, 0, "", none⟩,
          ⟨some 2, none, 2, -1, 5, "USD", 0, 0, "", none⟩,
          ⟨none, none, 3, -1, 2, "USD", 0, 0, "", none⟩] :
            List Element).getD j default).id =
          (([⟨some 1, none, 1, 1, 5, "USD", 0, 0, "", none⟩,
            ⟨some 2, none, 2, -1, 5, "USD", 0, 0, "", none⟩] :
              List Element).getD j default).id) ∧
      (∀ ie ∈ ([⟨some 1, none, 1, 1, 7, "USD", 0, 0, ""⟩,
          ⟨none, none, 3, -1, 2, "USD", 0, 0, ""⟩] : List IElement),
        ∀ k, ie.id = some k →
          ∃ j, j < ([⟨some 1, none, 1, 1, 5, "USD", 0, 0, "", none⟩,
              ⟨some 2, none, 2, -1, 5, "USD", 0, 0, "", none⟩] :
                List Element).length ∧
            (([⟨some 1, none, 1, 1, 5, "USD", 0, 0, "", none⟩,
              ⟨some 2, none, 2, -1, 5, "USD", 0, 0, "", none⟩] :
                List Element).getD j default).id = some k) := by
  have h := mergeElements_id_preservation none
    (some [⟨some 1, none, 1, 1, 5, "USD", 0, 0, "", none⟩,
      ⟨some 2, none, 2, -1, 5, "USD", 0, 0, "", none⟩])
    [⟨some 1, none, 1, 1, 7, "USD", 0, 0, ""⟩,
      ⟨none, none, 3, -1, 2, "USD", 0, 0, ""⟩]
    [⟨some 1, none, 1, 1, 7, "USD", 0, 0, "", none⟩,
      ⟨some 2, none, 2, -1, 5, "USD", 0, 0, "", none⟩,
      ⟨none, none, 3, -1, 2, "USD", 0, 0, "", none⟩] rfl
  exact h

/-- C8: a transaction whose elements were never loaded or set has
`balanced = true`, and `save`'s validation never rejects it with the
not-balanced error. -/
theorem balanced_when_elements_none (t : Transaction)
    (h : t.elements = none) :
    t.balanced = true ∧
      t.saveValidate ≠ Except.error SaveError.notBalanced := by
  have hb : t.balanced = true := by
    unfold Transaction.balanced
    rw [h]
  refine ⟨hb, ?_⟩
  unfold Transaction.saveValidate
  cases hd : t.date with
  | none => simp
  | some d =>
    cases hdate : isDateOnly d with
    | false => simp [hdate]
    | true => simp [hdate, hb]

/-- C8 witness: a transaction with a valid date and no element list passes
the balance check. -/
theorem balanced_when_elements_none_witness :
    Transaction.balanced
        ⟨none, "", none, some "2020-01-01", none, none, none⟩ = true ∧
      Transaction.saveValidate
          ⟨none, "", none, some "2020-01-01", none, none, none⟩ ≠
        Except.error SaveError.notBalanced :=
  balanced_when_elements_none
    ⟨none, "", none, some "2020-01-01", none, none, none⟩ rfl

/-- C10: `mergeElements` performs no non-negativity check on amounts: a
candidate list with one debit and one credit posting both of amount -5 in
the same currency succeeds, and the negative amounts are stored unchanged. -/
theorem mergeElements_negative_amounts :
    mergeElements none none
        [⟨none, none, 1, 1, -5, "USD", 0, 0, ""⟩,
          ⟨none, none, 2, -1, -5, "USD", 0, 0, ""⟩] =
      Except.ok [⟨none, none, 1, 1, -5, "USD", 0, 0, "", none⟩,
        ⟨none, none, 2, -1, -5, "USD", 0, 0, "", none⟩] := rfl

/-- C7: `_getBalances` (in both net-balance mode and sum mode) depends only
on the multiset of input elements: a permutation of the input yields the
identical `Money` sequence, and the output is sorted strictly ascending by
currency code. -/
theorem getBalances_perm_invariant (sum : Bool) (l₁ l₂ : List Element)
    (h : l₁.Perm l₂) :
    _getBalances l₁ sum = _getBalances l₂ sum ∧
      List.Pairwise (fun a b : Money => strLt a.currency b.currency = true)
        (_getBalances l₁ sum) :=
  ⟨getBalances_eq_of_perm sum h, getBalances_sorted_strict l₁ sum⟩

/-- C7 witness: swapping two elements of different currencies leaves the
balance list unchanged, and the output is sorted by currency. -/
theorem getBalances_perm_invariant_witness :
    _getBalances [⟨none, none, 1, 1, 10, "USD", 0, 0, "", none⟩,
        ⟨none, none, 2, 1, 3, "EUR", 0, 0, "", none⟩] false =
      _getBalances [⟨none, none, 2, 1, 3, "EUR", 0, 0, "", none⟩,
        ⟨none, none, 1, 1, 10, "USD", 0, 0, "", none⟩] false ∧
      List.Pairwise (fun a b : Money => strLt a.currency b.currency = true)
        (_getBalances [⟨none, none, 1, 1, 10, "USD", 0, 0, "", none⟩,
          ⟨none, none, 2, 1, 3, "EUR", 0, 0, "", none⟩] false) :=
  getBalances_perm_invariant false
    [⟨none, none, 1, 1, 10, "USD", 0, 0, "", none⟩,
      ⟨none, none, 2, 1, 3, "EUR", 0, 0, "", none⟩]
    [⟨none, none, 2, 1, 3, "EUR", 0, 0, "", none⟩,
      ⟨none, none, 1, 1, 10, "USD", 0, 0, "", none⟩]
    (List.Perm.swap _ _ _)

/-- C9: a reference whose id is 0 or undefined, or whose date is undefined
(or empty), is ignored by `prevId`/`nextId`: they behave exactly as with no
reference, returning the last (respectively first) row of the whole
filtered set by (date, id). -/
theorem navId_falsy_ref_ignored (rows : List TxnRow) (tf : TypeFilter)
    (t : Option TxnRef)
    (h : t = none ∨ ∃ r, t = some r ∧
      (truthyId r.id = false ∨ truthyStr r.date = false)) :
    prevId rows t tf = prevId rows none tf ∧
      nextId rows t tf = nextId rows none tf ∧
      (rows.filter (typeMatches tf) ≠ [] →
        (∃ r ∈ rows.filter (typeMatches tf), prevId rows t tf = r.id ∧
          ∀ x ∈ rows.filter (typeMatches tf),
            keyLtB (rowKey r) (rowKey x) = false) ∧
        (∃ r ∈ rows.filter (typeMatches tf), nextId rows t tf = r.id ∧
          ∀ x ∈ rows.filter (typeMatches tf),
            keyLtB (rowKey x) (rowKey r) = false)) := by
  have hcond : ∀ r : TxnRef, t = some r →
      (truthyId r.id && truthyStr r.date) = false := by
    intro r hr
    rcases h with h | ⟨r', hr', hc⟩
    · rw [h] at hr
      exact Option.noConfusion hr
    · rw [hr'] at hr
      injection hr with hr
      subst hr
      rcases hc with hc | hc <;> simp [hc]
  have hp : prevId rows t tf = prevId rows none tf := by
    cases t with
    | none => rfl
    | some r =>
      show pickFirst (List.insertionSort descRow
          (if (truthyId r.id && truthyStr r.date) = true then
            List.filter (fun row => rowBefore row r)
              (List.filter (typeMatches tf) rows)
          else List.filter (typeMatches tf) rows)) =
        pickFirst (List.insertionSort descRow
          (List.filter (typeMatches tf) rows))
      rw [hcond r rfl, if_neg Bool.false_ne_true]
  have hn : nextId rows t tf = nextId rows none tf := by
    cases t with
    | none => rfl
    | some r =>
      show pickFirst (List.insertionSort ascRow
          (if (truthyId r.id && truthyStr r.date) = true then
            List.filter (fun row => rowAfter row r)
              (List.filter (typeMatches tf) rows)
          else List.filter (typeMatches tf) rows)) =
        pickFirst (List.insertionSort ascRow
          (List.filter (typeMatches tf) rows))
      rw [hcond r rfl, if_neg Bool.false_ne_true]
  refine ⟨hp, hn, ?_⟩
  intro hne
  constructor
  · rcases pickFirst_desc_spec (rows.filter (typeMatches tf)) with
      ⟨hnil, _⟩ | ⟨r, hr, hres, hmax⟩
    · exact absurd hnil hne
    · exact ⟨r, hr, hp.trans hres, hmax⟩
  · rcases pickFirst_asc_spec (rows.filter (typeMatches tf)) with
      ⟨hnil, _⟩ | ⟨r, hr, hres, hmax⟩
    · exact absurd hnil hne
    · exact ⟨r, hr, hn.trans hres, hmax⟩

/-- C9 witness: a reference with id 0 is ignored; on three dated rows the
queries return the overall last (id 3) and first (id 1) rows. -/
theorem navId_falsy_ref_ignored_witness :
    prevId [⟨1, "2020-01-01", TransactionType.raw⟩,
        ⟨2, "2020-01-02", TransactionType.raw⟩,
        ⟨3, "2020-01-02", TransactionType.raw⟩]
        (some ⟨some 0, some "2020-01-02"⟩) TypeFilter.noFilter =
      prevId [⟨1, "2020-01-01", TransactionType.raw⟩,
        ⟨2, "2020-01-02", TransactionType.raw⟩,
        ⟨3, "2020-01-02", TransactionType.raw⟩] none TypeFilter.noFilter ∧
    prevId [⟨1, "2020-01-01", TransactionType.raw⟩,
        ⟨2, "2020-01-02", TransactionType.raw⟩,
        ⟨3, "2020-01-02", TransactionType.raw⟩]
        (some ⟨some 0, some "2020-01-02"⟩) TypeFilter.noFilter = 3 ∧
    nextId [⟨1, "2020-01-01", TransactionType.raw⟩,
        ⟨2, "2020-01-02", TransactionType.raw⟩,
        ⟨3, "2020-01-02", TransactionType.raw⟩]
        (some ⟨some 0, some "2020-01-02"⟩) TypeFilter.noFilter = 1 :=
  ⟨(navId_falsy_ref_ignored
      [⟨1, "2020-01-01", TransactionType.raw⟩,
        ⟨2, "2020-01-02", TransactionType.raw⟩,
        ⟨3, "2020-01-02", TransactionType.raw⟩] TypeFilter.noFilter
      (some ⟨some 0, some "2020-01-02"⟩)
      (Or.inr ⟨⟨some 0, some "2020-01-02"⟩, rfl, Or.inl rfl⟩)).1,
    by decide, by decide⟩

/-- C5: with a reference carrying a truthy id and date, `prevId` returns the
id of the row (within the type filter) with the greatest (date, id) key
strictly below the reference key and `nextId` the least strictly above,
each returning 0 when no such row exists. -/
theorem prevId_nextId_adjacent (rows : List TxnRow) (tf : TypeFilter)
    (i : Nat) (d : String) (hi : i ≠ 0) (hd : d ≠ "") :
    ((rows.filter (fun row => typeMatches tf row &&
        keyLtB (rowKey row) (d, i)) = [] →
      prevId rows (some ⟨some i, some d⟩) tf = 0) ∧
    (rows.filter (fun row => typeMatches tf row &&
        keyLtB (rowKey row) (d, i)) ≠ [] →
      ∃ r ∈ rows.filter (fun row => typeMatches tf row &&
          keyLtB (rowKey row) (d, i)),
        prevId rows (some ⟨some i, some d⟩) tf = r.id ∧
        ∀ x ∈ rows.filter (fun row => typeMatches tf row &&
            keyLtB (rowKey row) (d, i)),
          keyLtB (rowKey r) (rowKey x) = false)) ∧
    ((rows.filter (fun row => typeMatches tf row &&
        keyLtB ((d, i) : String × Nat) (rowKey row)) = [] →
      nextId rows (some ⟨some i, some d⟩) tf = 0) ∧
    (rows.filter (fun row => typeMatches tf row &&
        keyLtB ((d, i) : String × Nat) (rowKey row)) ≠ [] →
      ∃ r ∈ rows.filter (fun row => typeMatches tf row &&
          keyLtB ((d, i) : String × Nat) (rowKey row)),
        nextId rows (some ⟨some i, some d⟩) tf = r.id ∧
        ∀ x ∈ rows.filter (fun row => typeMatches tf row &&
            keyLtB ((d, i) : String × Nat) (rowKey row)),
          keyLtB (rowKey x) (rowKey r) = false)) := by
  have hcond : (truthyId (some i) && truthyStr (some d)) = true := by
    simp [truthyId, truthyStr, hi, hd]
  have hqp : List.filter (fun row => rowBefore row ⟨some i, some d⟩)
      (List.filter (typeMatches tf) rows) =
      rows.filter (fun row => typeMatches tf row &&
        keyLtB (rowKey row) (d, i)) := by
    rw [List.filter_filter]
    apply List.filter_congr
    intro x _
    rw [Bool.and_comm]
    rfl
  have hqn : List.filter (fun row => rowAfter row ⟨some i, some d⟩)
      (List.filter (typeMatches tf) rows) =
      rows.filter (fun row => typeMatches tf row &&
        keyLtB ((d, i) : String × Nat) (rowKey row)) := by
    rw [List.filter_filter]
    apply List.filter_congr
    intro x _
    rw [Bool.and_comm]
    have hsym : (x.date == d) = (d == x.date) := by
      by_cases hde : x.date = d
      · simp [hde]
      · simp [hde, Ne.symm hde]
    show (typeMatches tf x &&
        (strLt d x.date || (x.date == d && decide (i < x.id)))) =
      (typeMatches tf x &&
        (strLt d x.date || (d == x.date && decide (i < x.id))))
    rw [hsym]
  have hprev : prevId rows (some ⟨some i, some d⟩) tf =
      pickFirst (List.insertionSort descRow
        (rows.filter (fun row => typeMatches tf row &&
          keyLtB (rowKey row) (d, i)))) := by
    show pickFirst (List.insertionSort descRow
        (if (truthyId (some i) && truthyStr (some d)) = true then
          List.filter (fun row => rowBefore row ⟨some i, some d⟩)
            (List.filter (typeMatches tf) rows)
        else List.filter (typeMatches tf) rows)) = _
    rw [hcond, if_pos rfl, hqp]
  have hnext : nextId rows (some ⟨some i, some d⟩) tf =
      pickFirst (List.insertionSort ascRow
        (rows.filter (fun row => typeMatches tf row &&
          keyLtB ((d, i) : String × Nat) (rowKey row)))) := by
    show pickFirst (List.insertionSort ascRow
        (if (truthyId (some i) && truthyStr (some d)) = true then
          List.filter (fun row => rowAfter row ⟨some i, some d⟩)
            (List.filter (typeMatches tf) rows)
        else List.filter (typeMatches tf) rows)) = _
    rw [hcond, if_pos rfl, hqn]
  constructor
  · rcases pickFirst_desc_spec (rows.filter (fun row => typeMatches tf row &&
        keyLtB (rowKey row) (d, i))) with ⟨hnil, hres⟩ | ⟨r, hr, hres, hmax⟩
    · exact ⟨fun _ => hprev.trans hres, fun hne => absurd hnil hne⟩
    · exact ⟨fun hnil => absurd (hnil ▸ hr) (List.not_mem_nil r),
        fun _ => ⟨r, hr, hprev.trans hres, hmax⟩⟩
  · rcases pickFirst_asc_spec (rows.filter (fun row => typeMatches tf row &&
        keyLtB ((d, i) : String × Nat) (rowKey row))) with
      ⟨hnil, hres⟩ | ⟨r, hr, hres, hmax⟩
    · exact ⟨fun _ => hnext.trans hres, fun hne => absurd hnil hne⟩
    · exact ⟨fun hnil => absurd (hnil ▸ hr) (List.not_mem_nil r),
        fun _ => ⟨r, hr, hnext.trans hres, hmax⟩⟩

/-- C5 witness: scenario D, three transactions dated 2020-01-01, 2020-01-02,
2020-01-02 with ids 1, 2, 3; from reference (id 2, date 2020-01-02) the
previous id is 1 and the next id is 3. -/
theorem prevId_nextId_adjacent_witness :
    ([⟨1, "2020-01-01", TransactionType.raw⟩,
        ⟨2, "2020-01-02", TransactionType.raw⟩,
        ⟨3, "2020-01-02", TransactionType.raw⟩] : List TxnRow).filter
        (fun row => typeMatches TypeFilter.noFilter row &&
          keyLtB (rowKey row) ("2020-01-02", 2)) ≠ [] ∧
    prevId [⟨1, "2020-01-01", TransactionType.raw⟩,
        ⟨2, "2020-01-02", TransactionType.raw⟩,
        ⟨3, "2020-01-02", TransactionType.raw⟩]
        (some ⟨some 2, some "2020-01-02"⟩) TypeFilter.noFilter = 1 ∧
    nextId [⟨1, "2020-01-01", TransactionType.raw⟩,
        ⟨2, "2020-01-02", TransactionType.raw⟩,
        ⟨3, "2020-01-02", TransactionType.raw⟩]
        (some ⟨some 2, some "2020-01-02"⟩) TypeFilter.noFilter = 3 ∧
    (∃ r ∈ ([⟨1, "2020-01-01", TransactionType.raw⟩,
        ⟨2, "2020-01-02", TransactionType.raw⟩,
        ⟨3, "2020-01-02", TransactionType.raw⟩] : List TxnRow).filter
        (fun row => typeMatches TypeFilter.noFilter row &&
          keyLtB (rowKey row) ("2020-01-02", 2)),
      prevId [⟨1, "2020-01-01", TransactionType.raw⟩,
          ⟨2, "2020-01-02", TransactionType.raw⟩,
          ⟨3, "2020-01-02", TransactionType.raw⟩]
          (some ⟨some 2, some "2020-01-02"⟩) TypeFilter.noFilter = r.id ∧
        ∀ x ∈ ([⟨1, "2020-01-01", TransactionType.raw⟩,
            ⟨2, "2020-01-02", TransactionType.raw⟩,
            ⟨3, "2020-01-02", TransactionType.raw⟩] : List TxnRow).filter
            (fun row => typeMatches TypeFilter.noFilter row &&
              keyLtB (rowKey row) ("2020-01-02", 2)),
          keyLtB (rowKey r) (rowKey x) = false) :=
  ⟨by decide, by decide, by decide,
    ((prevId_nextId_adjacent
        [⟨1, "2020-01-01", TransactionType.raw⟩,
          ⟨2, "2020-01-02", TransactionType.raw⟩,
          ⟨3, "2020-01-02", TransactionType.raw⟩] TypeFilter.noFilter
        2 "2020-01-02" (by decide) (by decide)).1.2 (by decide))⟩

/-- C3 counterexample: a child element with a resolved parentId (3), a
persisted id (7), amount 0 and no taxCode carries a parent reference, so by
the claim it should go to the children batch and not be deleted; the code
puts it in the deletes batch (children batch empty) and physically deletes
it. -/
theorem save_partition_counterexample :
    (partitionEls (setTxnIds (some 10)
        [⟨some 7, none, 1, 1, 0, "USD", 3, 0, "", none⟩])).2.1 = [] ∧
    (partitionEls (setTxnIds (some 10)
        [⟨some 7, none, 1, 1, 0, "USD", 3, 0, "", none⟩])).2.2.map Prod.snd =
      [⟨some 7, none, 1, 1, 0, "USD", 3, 0, "", none⟩] ∧
    (_save 10 100 [⟨some 7, none, 1, 1, 0, "USD", 3, 0, "", none⟩]).deleted =
      [⟨some 7, none, 1, 1, 0, "USD", 3, 0, "", none⟩] ∧
    (_save 10 100 [⟨some 7, none, 1, 1, 0, "USD", 3, 0, "", none⟩]).saved =
      [] ∧
    (⟨some 7, none, 1, 1, 0, "USD", 3, 0, "", none⟩ : Element).parentId ≠ 0 ∧
    (_save 10 100 [⟨none, none, 1, 1, 0, "USD", 0, 0, "", none⟩]).deleted =
      [] ∧
    (_save 10 100 [⟨none, none, 1, 1, 0, "USD", 0, 0, "", none⟩]).saved =
      [] := by
  refine ⟨rfl, rfl, rfl, rfl, by decide, rfl, rfl⟩

/-- C3 (amended): during `_save` the elements are partitioned so that
exactly those with amount 0, empty taxCode and a truthy (present, nonzero)
id form the deletes batch — regardless of any parent reference — and the
deletes batch is the prefix of the physically deleted rows; elements kept
alive (nonzero amount or a taxCode) go to the children batch exactly when
they carry a parent reference (a pending `_parent` or a nonzero parentId)
and to the parents batch otherwise; zero-amount, taxCode-less elements
without an id belong to no batch. -/
theorem save_partition_batches (tid fresh : Nat) (els : List Element) :
    (partitionEls (setTxnIds (some tid) els)).1.map Prod.snd =
      (setTxnIds (some tid) els).filter
        (fun e => (e.amount != 0 || e.taxCode != "") &&
          !(e._parent.isSome || e.parentId != 0)) ∧
    (partitionEls (setTxnIds (some tid) els)).2.1.map Prod.snd =
      (setTxnIds (some tid) els).filter
        (fun e => (e.amount != 0 || e.taxCode != "") &&
          (e._parent.isSome || e.parentId != 0)) ∧
    (partitionEls (setTxnIds (some tid) els)).2.2.map Prod.snd =
      (setTxnIds (some tid) els).filter
        (fun e => (e.amount == 0 && e.taxCode == "") && truthyId e.id) ∧
    ∃ rest, (_save tid fresh els).deleted =
      ((partitionEls (setTxnIds (some tid) els)).2.2.map Prod.snd) ++ rest := by
  refine ⟨?_, ?_, ?_, save_deleted_prefix tid fresh els⟩
  · rw [partitionEls_eq]
    rw [enum_filter_map_snd (setTxnIds (some tid) els)
      (fun e => isKeep e && !hasParentRef e)]
    rfl
  · rw [partitionEls_eq]
    rw [enum_filter_map_snd (setTxnIds (some tid) els)
      (fun e => isKeep e && hasParentRef e)]
    rfl
  · rw [partitionEls_eq]
    rw [enum_filter_map_snd (setTxnIds (some tid) els)
      (fun e => !(isKeep e) && truthyId e.id)]
    apply List.filter_congr
    intro x _
    have h1 : (!(isKeep x)) = (x.amount == 0 && x.taxCode == "") := by
      simp [isKeep, bne]
    rw [h1]

/-- C4: for a transaction holding a root posting R (id 1) with two pending
children A (id 2, nonzero amount) and B (id 3, zero amount), where an edit
has zeroed R's amount with no taxCode, plus a root D balancing A, `_save`
deletes R and B and saves A promoted to a root (parentId 0); B is deleted,
not saved. -/
theorem save_parent_cascade (tid fresh : Nat) (a : Int) (c : String)
    (h : a ≠ 0) :
    (_save tid fresh
        [⟨some 1, none, 1, 1, 0, c, 0, 0, "", none⟩,
          ⟨some 2, none, 2, -1, a, c, -1, 0, "", some 0⟩,
          ⟨some 3, none, 3, -1, 0, c, -1, 0, "", some 0⟩,
          ⟨some 4, none, 4, 1, a, c, 0, 0, "", none⟩]).saved =
      [⟨some 4, some tid, 4, 1, a, c, 0, 0, "", none⟩,
        ⟨some 2, some tid, 2, -1, a, c, 0, 0, "", none⟩] ∧
    (_save tid fresh
        [⟨some 1, none, 1, 1, 0, c, 0, 0, "", none⟩,
          ⟨some 2, none, 2, -1, a, c, -1, 0, "", some 0⟩,
          ⟨some 3, none, 3, -1, 0, c, -1, 0, "", some 0⟩,
          ⟨some 4, none, 4, 1, a, c, 0, 0, "", none⟩]).deleted =
      [⟨some 1, none, 1, 1, 0, c, 0, 0, "", none⟩,
        ⟨some 3, none, 3, -1, 0, c, -1, 0, "", some 0⟩] := by
  have ha : (a != 0) = true := by simp [h]
  constructor <;>
    simp [_save, setTxnIds, partitionEls, List.enum, List.enumFrom, isKeep,
      hasParentRef, truthyId, deletesPhase, deleteStep, repointChildren,
      jsEqIdInt, parentsPhase, childrenPhase, ha, h]

/-- C4 witness: the cascade at amount 3 in USD with transaction id 10. -/
theorem save_parent_cascade_witness :
    (_save 10 100
        [⟨some 1, none, 1, 1, 0, "USD", 0, 0, "", none⟩,
          ⟨some 2, none, 2, -1, 3, "USD", -1, 0, "", some 0⟩,
          ⟨some 3, none, 3, -1, 0, "USD", -1, 0, "", some 0⟩,
          ⟨some 4, none, 4, 1, 3, "USD", 0, 0, "", none⟩]).saved =
      [⟨some 4, some 10, 4, 1, 3, "USD", 0, 0, "", none⟩,
        ⟨some 2, some 10, 2, -1, 3, "USD", 0, 0, "", none⟩] ∧
    (_save 10 100
        [⟨some 1, none, 1, 1, 0, "USD", 0, 0, "", none⟩,
          ⟨some 2, none, 2, -1, 3, "USD", -1, 0, "", some 0⟩,
          ⟨some 3, none, 3, -1, 0, "USD", -1, 0, "", some 0⟩,
          ⟨some 4, none, 4, 1, 3, "USD", 0, 0, "", none⟩]).deleted =
      [⟨some 1, none, 1, 1, 0, "USD", 0, 0, "", none⟩,
        ⟨some 3, none, 3, -1, 0, "USD", -1, 0, "", some 0⟩] :=
  save_parent_cascade 10 100 3 "USD" (by decide)

end Gigobooks
